import Mathlib

/-!
Verification of the Fernet token scheme (src/src/cryptography/fernet.py).

Bytes are modelled as lists of naturals below 256.  The external
cryptographic primitives (AES-CBC, HMAC-SHA256) are modelled as an
abstract provider structure, with the contracts the scheme relies on
stated as a lawfulness predicate; base64url and PKCS7 padding are
modelled concretely.
-/

/-- Byte strings: lists of naturals, valid when every entry is below 256. -/
abbrev Bytes := List Nat

/-- Every byte of the list is an actual byte value. -/
abbrev ValidBytes (d : Bytes) : Prop := ∀ b ∈ d, b < 256

/-- Character (ASCII code) of a base64url digit 0..63: A-Z, a-z, 0-9, -, _. -/
def b64char (n : Nat) : Nat :=
  if n < 26 then 65 + n
  else if n < 52 then 97 + (n - 26)
  else if n < 62 then 48 + (n - 52)
  else if n = 62 then 45
  else 95

/-- Digit value of a base64url character, none for a character outside the alphabet. -/
def b64digit (c : Nat) : Option Nat :=
  if 65 ≤ c ∧ c ≤ 90 then some (c - 65)
  else if 97 ≤ c ∧ c ≤ 122 then some (26 + (c - 97))
  else if 48 ≤ c ∧ c ≤ 57 then some (52 + (c - 48))
  else if c = 45 then some 62
  else if c = 95 then some 63
  else none

/-- base64url encoding with padding characters, as bytes of the ASCII text. -/
def b64encode : Bytes → Bytes
  | a :: b :: c :: rest =>
      b64char (a / 4) :: b64char (a % 4 * 16 + b / 16) ::
      b64char (b % 16 * 4 + c / 64) :: b64char (c % 64) :: b64encode rest
  | [a, b] => [b64char (a / 4), b64char (a % 4 * 16 + b / 16), b64char (b % 16 * 4), 61]
  | [a] => [b64char (a / 4), b64char (a % 4 * 16), 61, 61]
  | [] => []

/-- base64url decoding: groups of four characters, padding (61 is the code
of the equals sign) allowed only at the very end; none on malformed text. -/
def b64decode : Bytes → Option Bytes
  | c1 :: c2 :: c3 :: c4 :: rest =>
    match b64digit c1, b64digit c2 with
    | some s1, some s2 =>
      if c3 = 61 ∧ c4 = 61 ∧ rest = [] then
        some [s1 * 4 + s2 / 16]
      else if c4 = 61 ∧ rest = [] then
        match b64digit c3 with
        | some s3 => some [s1 * 4 + s2 / 16, s2 % 16 * 16 + s3 / 4]
        | none => none
      else
        match b64digit c3, b64digit c4 with
        | some s3, some s4 =>
          (b64decode rest).map
            (fun d => (s1 * 4 + s2 / 16) :: (s2 % 16 * 16 + s3 / 4) :: (s3 % 4 * 64 + s4) :: d)
        | _, _ => none
    | _, _ => none
  | [] => some []
  | _ => none

theorem b64digit_b64char (n : Nat) (h : n < 64) : b64digit (b64char n) = some n := by
  have hall : ∀ m ∈ List.range 64, b64digit (b64char m) = some m := by decide
  exact hall n (List.mem_range.mpr h)

theorem b64char_ne_61 (n : Nat) : b64char n ≠ 61 := by
  by_cases h : n < 64
  · have hall : ∀ m ∈ List.range 64, b64char m ≠ 61 := by decide
    exact hall n (List.mem_range.mpr h)
  · simp only [b64char]
    rw [if_neg (by omega), if_neg (by omega), if_neg (by omega), if_neg (by omega)]
    omega

theorem b64digit_lt (c s : Nat) (h : b64digit c = some s) : s < 64 := by
  simp only [b64digit] at h
  repeat' split at h
  all_goals simp_all
  all_goals omega

/-- Anything base64url decoding produces is a genuine byte string. -/
theorem b64decode_valid (cs : Bytes) : ∀ d, b64decode cs = some d → ValidBytes d := by
  induction cs using b64decode.induct with
  | case1 c1 c2 c3 c4 rest a1 a2 h2 h1 hpad =>
    intro d h
    rw [b64decode, h1, h2] at h
    simp only [if_pos hpad, Option.some.injEq] at h
    have hb1 := b64digit_lt _ _ h1
    have hb2 := b64digit_lt _ _ h2
    intro b hb
    rw [← h] at hb
    simp only [List.mem_singleton] at hb
    omega
  | case2 c1 c2 c3 c4 rest a1 a2 h2 h1 hn1 hp2 s3 h3 =>
    intro d h
    rw [b64decode, h1, h2] at h
    simp only [if_neg hn1, if_pos hp2, h3, Option.some.injEq] at h
    have hb1 := b64digit_lt _ _ h1
    have hb2 := b64digit_lt _ _ h2
    have hb3 := b64digit_lt _ _ h3
    intro b hb
    rw [← h] at hb
    simp only [List.mem_cons, List.not_mem_nil, or_false] at hb
    rcases hb with hb | hb <;> omega
  | case3 c1 c2 c3 c4 rest a1 a2 h2 h1 hn1 hp2 h3 =>
    intro d h
    rw [b64decode, h1, h2] at h
    simp only [if_neg hn1, if_pos hp2, h3] at h
    exact Option.noConfusion h
  | case4 c1 c2 c3 c4 rest a1 a2 h2 h1 hn1 hn2 s3 s4 h4 h3 ih =>
    intro d h
    rw [b64decode, h1, h2] at h
    simp only [if_neg hn1, if_neg hn2, h3, h4] at h
    rcases Option.map_eq_some'.mp h with ⟨a, ha, rfl⟩
    have hva := ih a ha
    have hb1 := b64digit_lt _ _ h1
    have hb2 := b64digit_lt _ _ h2
    have hb3 := b64digit_lt _ _ h3
    have hb4 := b64digit_lt _ _ h4
    intro b hb
    simp only [List.mem_cons] at hb
    rcases hb with hb | hb | hb | hb
    · omega
    · omega
    · omega
    · exact hva b hb
  | case5 c1 c2 c3 c4 rest a1 a2 h2 h1 hn1 hn2 hnone =>
    intro d h
    rw [b64decode, h1, h2] at h
    simp only [if_neg hn1, if_neg hn2] at h
    rcases e3 : b64digit c3 with _ | s3 <;> rcases e4 : b64digit c4 with _ | s4 <;>
      simp at h
  | case6 c1 c2 c3 c4 rest hnone =>
    intro d h
    rw [b64decode] at h
    rcases e1 : b64digit c1 with _ | s1 <;> rcases e2 : b64digit c2 with _ | s2 <;>
      simp at h
  | case7 =>
    intro d h
    rw [b64decode] at h
    cases h
    intro b hb
    simp at hb
  | case8 t hne hnil =>
    intro d h
    rcases t with _ | ⟨a, _ | ⟨b, _ | ⟨c, _ | ⟨e, r⟩⟩⟩⟩
    · exact absurd rfl hnil
    · exact absurd h (by rw [show b64decode [a] = none from rfl]; simp)
    · exact absurd h (by rw [show b64decode [a, b] = none from rfl]; simp)
    · exact absurd h (by rw [show b64decode [a, b, c] = none from rfl]; simp)
    · exact (hne a b c e r rfl).elim

/-- Decoding inverts encoding on genuine byte strings. -/
theorem b64decode_b64encode (d : Bytes) (hv : ValidBytes d) :
    b64decode (b64encode d) = some d := by
  induction d using b64encode.induct with
  | case1 a b c rest ih =>
    have ha : a < 256 := hv a (by simp)
    have hb : b < 256 := hv b (by simp)
    have hc : c < 256 := hv c (by simp)
    have hrest : ValidBytes rest := fun x hx => hv x (by simp [hx])
    rw [b64encode, b64decode]
    rw [b64digit_b64char _ (by omega), b64digit_b64char _ (by omega)]
    simp only
    rw [if_neg (fun hcon => b64char_ne_61 _ hcon.1),
        if_neg (fun hcon => b64char_ne_61 _ hcon.1)]
    rw [b64digit_b64char _ (by omega), b64digit_b64char _ (by omega)]
    simp only [ih hrest, Option.map_some]
    have e1 : a / 4 * 4 + (a % 4 * 16 + b / 16) / 16 = a := by omega
    have e2 : (a % 4 * 16 + b / 16) % 16 * 16 + (b % 16 * 4 + c / 64) / 4 = b := by omega
    have e3 : (b % 16 * 4 + c / 64) % 4 * 64 + c % 64 = c := by omega
    rw [e1, e2, e3]
    rfl
  | case2 a b =>
    have ha : a < 256 := hv a (by simp)
    have hb : b < 256 := hv b (by simp)
    rw [b64encode, b64decode]
    rw [b64digit_b64char _ (by omega), b64digit_b64char _ (by omega)]
    simp only
    rw [if_neg (fun hcon => b64char_ne_61 _ hcon.1), if_pos (by simp)]
    rw [b64digit_b64char _ (by omega)]
    have e1 : a / 4 * 4 + (a % 4 * 16 + b / 16) / 16 = a := by omega
    have e2 : (a % 4 * 16 + b / 16) % 16 * 16 + b % 16 * 4 / 4 = b := by omega
    simp [e1]
    omega
  | case3 a =>
    have ha : a < 256 := hv a (by simp)
    rw [b64encode, b64decode]
    rw [b64digit_b64char _ (by omega), b64digit_b64char _ (by omega)]
    have e1 : a / 4 * 4 + a % 4 * 16 / 16 = a := by omega
    simp [e1]
    omega
  | case4 => rfl

/-- PKCS7 padding to 16-byte blocks, as produced by the padder the code
uses (pad value equals pad length, always between 1 and 16).
Modelled from the spec: the reversible block padding of the primitive
provider (spec section 4.1 step 1), whose implementation is not under src. -/
def pkcs7pad (d : Bytes) : Bytes :=
  d ++ List.replicate (16 - d.length % 16) (16 - d.length % 16)

/-- PKCS7 unpadding: requires a nonzero multiple of the block size whose
last byte p is between 1 and 16 with the last p bytes all equal to p.
Modelled from the spec: the reversible block unpadding of the primitive
provider (spec sections 4.1 and 6), whose implementation is not under src. -/
def pkcs7unpad (d : Bytes) : Option Bytes :=
  if d.length = 0 ∨ d.length % 16 ≠ 0 then none
  else
    let p := d.getLastD 0
    if p = 0 ∨ 16 < p then none
    else if (d.drop (d.length - p)).all (fun b => b = p) then
      some (d.take (d.length - p))
    else none

theorem pkcs7pad_length (d : Bytes) : (pkcs7pad d).length = d.length + (16 - d.length % 16) := by
  simp [pkcs7pad]

theorem pkcs7pad_length_mod (d : Bytes) : (pkcs7pad d).length % 16 = 0 := by
  rw [pkcs7pad_length]
  omega

theorem pkcs7pad_valid (d : Bytes) (hv : ValidBytes d) : ValidBytes (pkcs7pad d) := by
  intro b hb
  simp only [pkcs7pad, List.mem_append, List.mem_replicate] at hb
  rcases hb with hb | hb
  · exact hv b hb
  · omega

theorem pkcs7unpad_pkcs7pad (d : Bytes) : pkcs7unpad (pkcs7pad d) = some d := by
  have hp : 0 < 16 - d.length % 16 ∧ 16 - d.length % 16 ≤ 16 := by omega
  have hlen : (pkcs7pad d).length = d.length + (16 - d.length % 16) := pkcs7pad_length d
  have hlast : (pkcs7pad d).getLastD 0 = 16 - d.length % 16 := by
    rw [pkcs7pad, List.getLastD_eq_getLast?, List.getLast?_append,
        List.getLast?_replicate, if_neg (by omega)]
    simp
  rw [pkcs7unpad]
  rw [if_neg (by rw [hlen]; omega)]
  simp only [hlast]
  rw [if_neg (by omega)]
  have hdrop : (pkcs7pad d).drop ((pkcs7pad d).length - (16 - d.length % 16)) =
      List.replicate (16 - d.length % 16) (16 - d.length % 16) := by
    rw [pkcs7pad]
    apply List.drop_left'
    simp only [List.length_append, List.length_replicate]
    omega
  have htake : (pkcs7pad d).take ((pkcs7pad d).length - (16 - d.length % 16)) = d := by
    rw [pkcs7pad]
    apply List.take_left'
    simp only [List.length_append, List.length_replicate]
    omega
  rw [if_pos]
  · rw [htake]
  · rw [hdrop]
    simp [List.all_eq_true, List.mem_replicate]

theorem pkcs7unpad_nil : pkcs7unpad [] = none := by
  decide

/-- Big-endian 8-byte encoding of a 64-bit integer, as struct.pack with
format >Q produces for values below 2 to the 64. -/
def packU64 (n : Nat) : Bytes :=
  [n / 2 ^ 56 % 256, n / 2 ^ 48 % 256, n / 2 ^ 40 % 256, n / 2 ^ 32 % 256,
   n / 2 ^ 24 % 256, n / 2 ^ 16 % 256, n / 2 ^ 8 % 256, n % 256]

/-- Big-endian read of exactly 8 bytes, as struct.unpack with format >Q;
none when the slice does not hold exactly 8 bytes. -/
def unpackU64 : Bytes → Option Nat
  | [b0, b1, b2, b3, b4, b5, b6, b7] =>
      some (b0 * 2 ^ 56 + b1 * 2 ^ 48 + b2 * 2 ^ 40 + b3 * 2 ^ 32 +
            b4 * 2 ^ 24 + b5 * 2 ^ 16 + b6 * 2 ^ 8 + b7)
  | _ => none

theorem packU64_length (n : Nat) : (packU64 n).length = 8 := rfl

theorem packU64_valid (n : Nat) : ValidBytes (packU64 n) := by
  intro b hb
  simp only [packU64, List.mem_cons, List.not_mem_nil, or_false] at hb
  rcases hb with h | h | h | h | h | h | h | h <;> omega

theorem unpackU64_packU64 (n : Nat) (h : n < 2 ^ 64) : unpackU64 (packU64 n) = some n := by
  simp only [packU64, unpackU64, Option.some.injEq]
  omega

theorem unpackU64_lt (d : Bytes) (n : Nat) (h : unpackU64 d = some n) (hv : ValidBytes d) :
    n < 2 ^ 64 := by
  match d with
  | [b0, b1, b2, b3, b4, b5, b6, b7] =>
    simp only [unpackU64, Option.some.injEq] at h
    have h0 : b0 < 256 := hv b0 (by simp)
    have h1 : b1 < 256 := hv b1 (by simp)
    have h2 : b2 < 256 := hv b2 (by simp)
    have h3 : b3 < 256 := hv b3 (by simp)
    have h4 : b4 < 256 := hv b4 (by simp)
    have h5 : b5 < 256 := hv b5 (by simp)
    have h6 : b6 < 256 := hv b6 (by simp)
    have h7 : b7 < 256 := hv b7 (by simp)
    omega

/-- External cryptographic primitive provider (spec section 6): AES-CBC
block cipher encryption and decryption under a key and IV, and the
keyed-hash MAC (HMAC-SHA256).  The token scheme only composes these. -/
structure Provider where
  cbcEncrypt : Bytes → Bytes → Bytes → Bytes
  cbcDecrypt : Bytes → Bytes → Bytes → Option Bytes
  mac : Bytes → Bytes → Bytes

/-- Contracts of the primitive provider that the token scheme relies on:
decryption inverts encryption on block-aligned data, ciphertext length
equals plaintext length (CBC with no expansion beyond the prior padding),
the MAC tag is 32 bytes, and outputs are genuine byte strings. -/
structure Provider.Lawful (P : Provider) : Prop where
  dec_enc : ∀ k iv d, d.length % 16 = 0 → P.cbcDecrypt k iv (P.cbcEncrypt k iv d) = some d
  enc_length : ∀ k iv d, (P.cbcEncrypt k iv d).length = d.length
  dec_length : ∀ k iv c p, P.cbcDecrypt k iv c = some p → p.length = c.length
  mac_length : ∀ k d, (P.mac k d).length = 32
  enc_valid : ∀ k iv d, ValidBytes d → ValidBytes (P.cbcEncrypt k iv d)
  dec_valid : ∀ k iv c p, P.cbcDecrypt k iv c = some p → ValidBytes c → ValidBytes p
  mac_valid : ∀ k d, ValidBytes (P.mac k d)

/-- The two error kinds of the code: InvalidToken for every failure while
processing a caller-supplied token, ValueError for caller misconfiguration
(bad master key, empty ring). -/
inductive Err where
  | invalidToken : Err
  | valueError : Err
deriving DecidableEq

/-- Fixed 60-second maximum clock skew tolerance (fernet.py line 26). -/
def MAX_CLOCK_SKEW : Nat := 60

/-- A single-key engine: signing key and encryption key split from the
32-byte master key (fernet.py lines 43-44). -/
structure Fernet where
  signingKey : Bytes
  encryptionKey : Bytes
deriving DecidableEq

/-- Construction from a base64url-encoded master key (fernet.py lines
31-44): the key must decode to exactly 32 bytes, the signing key is the
first 16 bytes, the encryption key the last 16. -/
def Fernet.mk? (key : Bytes) : Except Err Fernet :=
  match b64decode key with
  | none => .error .valueError
  | some k =>
    if k.length ≠ 32 then .error .valueError
    else .ok ⟨k.take 16, k.drop 16⟩

/-- Token assembly (fernet.py Fernet._encrypt_from_parts, lines 58-77):
pad, CBC-encrypt, frame 0x80 plus big-endian time plus IV plus
ciphertext, MAC the frame and append the tag, base64url-encode. -/
def Fernet.encryptFromParts (P : Provider) (f : Fernet) (data : Bytes) (currentTime : Nat)
    (iv : Bytes) : Bytes :=
  let paddedData := pkcs7pad data
  let ciphertext := P.cbcEncrypt f.encryptionKey iv paddedData
  let basicParts := 0x80 :: (packU64 currentTime ++ iv ++ ciphertext)
  let hmac := P.mac f.signingKey basicParts
  b64encode (basicParts ++ hmac)

/-- Unverified parse of a token (fernet.py Fernet._get_unverified_token_data,
lines 103-118): base64url-decode, check the first byte is 0x80, read the
8-byte big-endian timestamp; every failure is InvalidToken. -/
def Fernet.getUnverifiedTokenData (token : Bytes) : Except Err (Nat × Bytes) :=
  match b64decode token with
  | none => .error .invalidToken
  | some data =>
    match data with
    | [] => .error .invalidToken
    | b :: _ =>
      if b ≠ 0x80 then .error .invalidToken
      else
        match unpackU64 ((data.drop 1).take 8) with
        | none => .error .invalidToken
        | some timestamp => .ok (timestamp, data)

/-- Signature check (fernet.py Fernet._verify_signature, lines 120-126):
recompute the MAC of all but the last 32 bytes and compare with the last
32 bytes (data[:-32] and data[-32:], with Python slice clamping). -/
def Fernet.verifySignature (P : Provider) (f : Fernet) (data : Bytes) : Bool :=
  decide (P.mac f.signingKey (data.take (data.length - 32)) = data.drop (data.length - 32))

/-- The part of fernet.py _decrypt_data after the ttl checks (lines
142-161): the signature check, then CBC decryption of data[25:-32] under
the IV data[9:25], then PKCS7 unpadding; every failure is InvalidToken. -/
def Fernet.decryptDataAfterTime (P : Provider) (f : Fernet) (data : Bytes) :
    Except Err Bytes :=
  if ¬ Fernet.verifySignature P f data then .error .invalidToken
  else
    let iv := (data.drop 9).take 16
    let ciphertext := (data.drop 25).take (data.length - 32 - 25)
    match P.cbcDecrypt f.encryptionKey iv ciphertext with
    | none => .error .invalidToken
    | some plaintextPadded =>
      match pkcs7unpad plaintextPadded with
      | none => .error .invalidToken
      | some unpadded => .ok unpadded

/-- Core decryption (fernet.py Fernet._decrypt_data, lines 128-161): the
optional (ttl, current_time) checks on the unverified timestamp, then the
rest of the routine. -/
def Fernet.decryptData (P : Provider) (f : Fernet) (data : Bytes) (timestamp : Nat)
    (timeInfo : Option (Nat × Nat)) : Except Err Bytes :=
  match timeInfo with
  | some (ttl, currentTime) =>
    if timestamp + ttl < currentTime then .error .invalidToken
    else if currentTime + MAX_CLOCK_SKEW < timestamp then .error .invalidToken
    else Fernet.decryptDataAfterTime P f data
  | none => Fernet.decryptDataAfterTime P f data

/-- Full decryption of a token (fernet.py Fernet.decrypt and
Fernet.decrypt_at_time, lines 79-95): parse, then _decrypt_data with the
optional (ttl, current_time) pair. -/
def Fernet.decrypt (P : Provider) (f : Fernet) (token : Bytes)
    (timeInfo : Option (Nat × Nat)) : Except Err Bytes :=
  match Fernet.getUnverifiedTokenData token with
  | .error e => .error e
  | .ok (timestamp, data) => Fernet.decryptData P f data timestamp timeInfo

/-- Timestamp extraction (fernet.py Fernet.extract_timestamp, lines
97-101): parse, verify the signature, return the embedded timestamp
without decrypting. -/
def Fernet.extractTimestamp (P : Provider) (f : Fernet) (token : Bytes) : Except Err Nat :=
  match Fernet.getUnverifiedTokenData token with
  | .error e => .error e
  | .ok (timestamp, data) =>
    if Fernet.verifySignature P f data then .ok timestamp
    else .error .invalidToken

/-- A key ring (fernet.py MultiFernet, lines 164-171): an ordered nonempty
list of engines. -/
structure MultiFernet where
  fernets : List Fernet
  nonempty : fernets ≠ []

/-- Ring construction (fernet.py MultiFernet.__init__, lines 165-171):
fails with ValueError on an empty list. -/
def MultiFernet.mk? (fs : List Fernet) : Except Err MultiFernet :=
  if h : fs = [] then .error .valueError
  else .ok ⟨fs, h⟩

/-- Ring encryption (fernet.py MultiFernet.encrypt_at_time, lines 176-177):
always the first engine. -/
def MultiFernet.encryptAtTime (P : Provider) (m : MultiFernet) (msg : Bytes)
    (currentTime : Nat) (iv : Bytes) : Bytes :=
  (m.fernets.head m.nonempty).encryptFromParts P msg currentTime iv

/-- The engine-by-engine loop of MultiFernet.decrypt and
MultiFernet.decrypt_at_time (lines 193-209): first success wins,
InvalidToken once every engine has failed. -/
def multiDecryptLoop (P : Provider) (fs : List Fernet) (msg : Bytes)
    (timeInfo : Option (Nat × Nat)) : Except Err Bytes :=
  match fs with
  | [] => .error .invalidToken
  | f :: rest =>
    match Fernet.decrypt P f msg timeInfo with
    | .ok p => .ok p
    | .error _ => multiDecryptLoop P rest msg timeInfo

/-- Ring decryption (fernet.py MultiFernet.decrypt / decrypt_at_time,
lines 193-209). -/
def MultiFernet.decrypt (P : Provider) (m : MultiFernet) (msg : Bytes)
    (timeInfo : Option (Nat × Nat)) : Except Err Bytes :=
  multiDecryptLoop P m.fernets msg timeInfo

/-- The engine-by-engine loop of MultiFernet.rotate (lines 181-188): try
_decrypt_data with no ttl under each engine in order. -/
def rotateLoop (P : Provider) (fs : List Fernet) (data : Bytes) (timestamp : Nat) :
    Option Bytes :=
  match fs with
  | [] => none
  | f :: rest =>
    match Fernet.decryptData P f data timestamp none with
    | .ok p => some p
    | .error _ => rotateLoop P rest data timestamp

/-- Rotation (fernet.py MultiFernet.rotate, lines 179-191): parse the
token, recover the plaintext with the first engine that can decrypt it
(no ttl), then re-encrypt under the first engine with a fresh IV and the
original timestamp. -/
def MultiFernet.rotate (P : Provider) (m : MultiFernet) (msg : Bytes) (iv : Bytes) :
    Except Err Bytes :=
  match Fernet.getUnverifiedTokenData msg with
  | .error e => .error e
  | .ok (timestamp, data) =>
    match rotateLoop P m.fernets data timestamp with
    | none => .error .invalidToken
    | some p => .ok ((m.fernets.head m.nonempty).encryptFromParts P p timestamp iv)

/-- An executable instantiation of the primitive provider used to run the
scheme on concrete inputs: the cipher is the identity on block-aligned
data and the tag is 32 copies of a byte sum.  It satisfies every contract
in Provider.Lawful. -/
def toyProvider : Provider where
  cbcEncrypt := fun _ _ d => d
  cbcDecrypt := fun _ _ c => if c.length % 16 = 0 then some c else none
  mac := fun k d => List.replicate 32 ((k.sum + d.sum) % 256)

theorem toyProvider_lawful : toyProvider.Lawful where
  dec_enc := by intro k iv d h; simp [toyProvider, h]
  enc_length := by intro k iv d; rfl
  dec_length := by
    intro k iv c p h
    simp only [toyProvider] at h
    split at h
    · cases h; rfl
    · cases h
  mac_length := by intro k d; simp [toyProvider]
  enc_valid := by intro k iv d h; exact h
  dec_valid := by
    intro k iv c p h hv
    simp only [toyProvider] at h
    split at h
    · cases h; exact hv
    · cases h
  mac_valid := by
    intro k d b hb
    simp only [toyProvider, List.mem_replicate] at hb
    omega

/-- The ciphertext field of a token produced by encryptFromParts. -/
def fernetCiphertext (P : Provider) (f : Fernet) (data : Bytes) (iv : Bytes) : Bytes :=
  P.cbcEncrypt f.encryptionKey iv (pkcs7pad data)

/-- The signed prefix (basic_parts in fernet.py line 70) of a token. -/
def fernetBasicParts (P : Provider) (f : Fernet) (data : Bytes) (currentTime : Nat)
    (iv : Bytes) : Bytes :=
  0x80 :: (packU64 currentTime ++ iv ++ fernetCiphertext P f data iv)

/-- The raw (pre-base64) bytes of a token produced by encryptFromParts. -/
def fernetRawToken (P : Provider) (f : Fernet) (data : Bytes) (currentTime : Nat)
    (iv : Bytes) : Bytes :=
  fernetBasicParts P f data currentTime iv ++
    P.mac f.signingKey (fernetBasicParts P f data currentTime iv)

theorem encryptFromParts_eq (P : Provider) (f : Fernet) (data : Bytes) (currentTime : Nat)
    (iv : Bytes) :
    f.encryptFromParts P data currentTime iv =
      b64encode (fernetRawToken P f data currentTime iv) := rfl

theorem fernetRawToken_valid (P : Provider) (hP : P.Lawful) (f : Fernet) (data : Bytes)
    (currentTime : Nat) (iv : Bytes) (hvd : ValidBytes data) (hviv : ValidBytes iv) :
    ValidBytes (fernetRawToken P f data currentTime iv) := by
  have hbp : ValidBytes (fernetBasicParts P f data currentTime iv) := by
    intro b hb
    simp only [fernetBasicParts, List.mem_cons, List.mem_append] at hb
    rcases hb with hb | (hb | hb) | hb
    · omega
    · exact packU64_valid currentTime b hb
    · exact hviv b hb
    · exact hP.enc_valid _ _ _ (pkcs7pad_valid data hvd) b hb
  intro b hb
  simp only [fernetRawToken, List.mem_append] at hb
  rcases hb with hb | hb
  · exact hbp b hb
  · exact hP.mac_valid f.signingKey _ b hb

/-- Unverified parse of a token whose decoded bytes start with 0x80 and a
packed 64-bit timestamp. -/
theorem getUnverifiedTokenData_ok (token rest : Bytes) (t : Nat)
    (hdec : b64decode token = some (0x80 :: (packU64 t ++ rest))) (ht : t < 2 ^ 64) :
    Fernet.getUnverifiedTokenData token = .ok (t, 0x80 :: (packU64 t ++ rest)) := by
  simp only [Fernet.getUnverifiedTokenData, hdec]
  simp [List.take_left' (packU64_length t), unpackU64_packU64 t ht]

/-- The post-ttl stage of decryption succeeds and returns the plaintext on
a well-formed token whose tag matches and whose ciphertext decrypts to a
correctly padded plaintext. -/
theorem decryptDataAfterTime_ok (P : Provider) (f : Fernet) (ts8 iv ct tag pt : Bytes)
    (h8 : ts8.length = 8) (hiv : iv.length = 16) (htag : tag.length = 32)
    (hsig : P.mac f.signingKey (0x80 :: (ts8 ++ (iv ++ ct))) = tag)
    (hdec : P.cbcDecrypt f.encryptionKey iv ct = some (pkcs7pad pt)) :
    Fernet.decryptDataAfterTime P f (0x80 :: (ts8 ++ (iv ++ (ct ++ tag)))) = .ok pt := by
  have hraw : (0x80 :: (ts8 ++ (iv ++ (ct ++ tag)))) =
      (0x80 :: (ts8 ++ (iv ++ ct))) ++ tag := by
    simp [List.append_assoc]
  have hpre : (0x80 :: (ts8 ++ (iv ++ ct))).length =
      ((0x80 :: (ts8 ++ (iv ++ ct))) ++ tag).length - 32 := by
    simp only [List.length_cons, List.length_append, h8, hiv, htag]
    omega
  have htake : (0x80 :: (ts8 ++ (iv ++ (ct ++ tag)))).take
      ((0x80 :: (ts8 ++ (iv ++ (ct ++ tag)))).length - 32) =
      0x80 :: (ts8 ++ (iv ++ ct)) := by
    conv_lhs => rw [hraw]
    exact List.take_left' hpre
  have hdrop32 : (0x80 :: (ts8 ++ (iv ++ (ct ++ tag)))).drop
      ((0x80 :: (ts8 ++ (iv ++ (ct ++ tag)))).length - 32) = tag := by
    conv_lhs => rw [hraw]
    exact List.drop_left' hpre
  have h9 : (0x80 :: (ts8 ++ (iv ++ (ct ++ tag)))).drop 9 = iv ++ (ct ++ tag) := by
    rw [show (9 : Nat) = 8 + 1 from rfl, List.drop_succ_cons, List.drop_left' h8]
  have h25 : (0x80 :: (ts8 ++ (iv ++ (ct ++ tag)))).drop 25 = ct ++ tag := by
    rw [show (25 : Nat) = 9 + 16 from rfl, ← List.drop_drop, h9, List.drop_left' hiv]
  have hct : (ct ++ tag).take ((0x80 :: (ts8 ++ (iv ++ (ct ++ tag)))).length - 32 - 25) =
      ct := by
    apply List.take_left'
    simp only [List.length_cons, List.length_append, h8, hiv, htag]
    omega
  have hiv16 : (iv ++ (ct ++ tag)).take 16 = iv := List.take_left' hiv
  have hver : Fernet.verifySignature P f (0x80 :: (ts8 ++ (iv ++ (ct ++ tag)))) = true := by
    rw [Fernet.verifySignature, htake, hdrop32, hsig]
    simp
  rw [Fernet.decryptDataAfterTime]
  rw [if_neg (by rw [hver]; simp)]
  simp only [h9, h25, hiv16, hct, hdec, pkcs7unpad_pkcs7pad]

/-- Round trip at the token level: decrypting a freshly produced token
with the same engine returns the payload, for any ttl policy that neither
expires nor future-dates the token (and always when no ttl is given). -/
theorem fernet_roundtrip (P : Provider) (hP : P.Lawful) (f : Fernet) (data : Bytes)
    (time : Nat) (iv : Bytes) (timeInfo : Option (Nat × Nat))
    (hvd : ValidBytes data) (hviv : ValidBytes iv) (hiv : iv.length = 16)
    (ht : time < 2 ^ 64)
    (hti : ∀ ttl now, timeInfo = some (ttl, now) →
        ¬(time + ttl < now) ∧ ¬(now + MAX_CLOCK_SKEW < time)) :
    Fernet.decrypt P f (f.encryptFromParts P data time iv) timeInfo = .ok data := by
  have hassoc : fernetRawToken P f data time iv =
      0x80 :: (packU64 time ++ (iv ++ (fernetCiphertext P f data iv ++
        P.mac f.signingKey (fernetBasicParts P f data time iv)))) := by
    simp [fernetRawToken, fernetBasicParts, List.append_assoc]
  have hdec : b64decode (f.encryptFromParts P data time iv) =
      some (0x80 :: (packU64 time ++ (iv ++ (fernetCiphertext P f data iv ++
        P.mac f.signingKey (fernetBasicParts P f data time iv))))) := by
    rw [encryptFromParts_eq, b64decode_b64encode _
      (fernetRawToken_valid P hP f data time iv hvd hviv), hassoc]
  have hparse := getUnverifiedTokenData_ok _ _ _ hdec ht
  have hsig : P.mac f.signingKey
      (0x80 :: (packU64 time ++ (iv ++ fernetCiphertext P f data iv))) =
      P.mac f.signingKey (fernetBasicParts P f data time iv) := by
    apply congrArg
    simp [fernetBasicParts, List.append_assoc]
  have hafter := decryptDataAfterTime_ok P f (packU64 time) iv
    (fernetCiphertext P f data iv)
    (P.mac f.signingKey (fernetBasicParts P f data time iv)) data
    (packU64_length time) hiv (hP.mac_length _ _) hsig
    (by rw [fernetCiphertext]; exact hP.dec_enc _ _ _ (pkcs7pad_length_mod data))
  rw [Fernet.decrypt, hparse]
  match timeInfo with
  | none => exact hafter
  | some (ttl, now) =>
    have hc := hti ttl now rfl
    show Fernet.decryptData P f _ time (some (ttl, now)) = .ok data
    rw [Fernet.decryptData.eq_def]
    simp only
    rw [if_neg hc.1, if_neg hc.2]
    exact hafter

theorem decryptData_some_eq (P : Provider) (f : Fernet) (data : Bytes) (ts ttl now : Nat) :
    Fernet.decryptData P f data ts (some (ttl, now)) =
      if ts + ttl < now then .error .invalidToken
      else if now + MAX_CLOCK_SKEW < ts then .error .invalidToken
      else Fernet.decryptDataAfterTime P f data := rfl

theorem decryptData_none_eq (P : Provider) (f : Fernet) (data : Bytes) (ts : Nat) :
    Fernet.decryptData P f data ts none = Fernet.decryptDataAfterTime P f data := rfl

theorem decryptData_ok_imp (P : Provider) (f : Fernet) (data : Bytes) (ts : Nat)
    (ti : Option (Nat × Nat)) (pt : Bytes)
    (h : Fernet.decryptData P f data ts ti = .ok pt) :
    Fernet.decryptDataAfterTime P f data = .ok pt := by
  match ti with
  | none => exact h
  | some (ttl, now) =>
    rw [decryptData_some_eq] at h
    by_cases h1 : ts + ttl < now
    · rw [if_pos h1] at h
      exact Except.noConfusion h
    · rw [if_neg h1] at h
      by_cases h2 : now + MAX_CLOCK_SKEW < ts
      · rw [if_pos h2] at h
        exact Except.noConfusion h
      · rw [if_neg h2] at h
        exact h

theorem afterTime_sig_fail (P : Provider) (f : Fernet) (data : Bytes)
    (h : Fernet.verifySignature P f data = false) :
    Fernet.decryptDataAfterTime P f data = .error .invalidToken := by
  rw [Fernet.decryptDataAfterTime, if_pos (by simp [h])]

theorem afterTime_ok_sig (P : Provider) (f : Fernet) (data pt : Bytes)
    (h : Fernet.decryptDataAfterTime P f data = .ok pt) :
    Fernet.verifySignature P f data = true := by
  by_contra hc
  rw [Bool.not_eq_true] at hc
  rw [afterTime_sig_fail P f data hc] at h
  exact Except.noConfusion h

theorem decryptData_sig_fail (P : Provider) (f : Fernet) (data : Bytes) (ts : Nat)
    (ti : Option (Nat × Nat)) (h : Fernet.verifySignature P f data = false) :
    Fernet.decryptData P f data ts ti = .error .invalidToken := by
  have hafter := afterTime_sig_fail P f data h
  match ti with
  | none => exact hafter
  | some (ttl, now) =>
    rw [decryptData_some_eq]
    by_cases h1 : ts + ttl < now
    · rw [if_pos h1]
    · rw [if_neg h1]
      by_cases h2 : now + MAX_CLOCK_SKEW < ts
      · rw [if_pos h2]
      · rw [if_neg h2]
        exact hafter

theorem getUnverified_error (token : Bytes) (e : Err)
    (h : Fernet.getUnverifiedTokenData token = .error e) : e = .invalidToken := by
  simp only [Fernet.getUnverifiedTokenData] at h
  rcases hb : b64decode token with _ | data <;> rw [hb] at h
  · cases h
    rfl
  · match data with
    | [] =>
      cases h
      rfl
    | b :: rest =>
      simp only at h
      split at h
      · cases h
        rfl
      · rcases hu : unpackU64 (((b :: rest).drop 1).take 8) with _ | ts <;>
          simp only [hu] at h
        · cases h
          rfl
        · exact Except.noConfusion h

theorem afterTime_error (P : Provider) (f : Fernet) (data : Bytes) (e : Err)
    (h : Fernet.decryptDataAfterTime P f data = .error e) : e = .invalidToken := by
  rw [Fernet.decryptDataAfterTime] at h
  split at h
  · cases h
    rfl
  · simp only at h
    rcases hc : P.cbcDecrypt f.encryptionKey ((data.drop 9).take 16)
        ((data.drop 25).take (data.length - 32 - 25)) with _ | p <;>
      simp only [hc] at h
    · cases h
      rfl
    · rcases hu : pkcs7unpad p with _ | u <;> simp only [hu] at h
      · cases h
        rfl
      · exact Except.noConfusion h

theorem decryptData_error (P : Provider) (f : Fernet) (data : Bytes) (ts : Nat)
    (ti : Option (Nat × Nat)) (e : Err)
    (h : Fernet.decryptData P f data ts ti = .error e) : e = .invalidToken := by
  match ti with
  | none => exact afterTime_error P f data e h
  | some (ttl, now) =>
    rw [decryptData_some_eq] at h
    by_cases h1 : ts + ttl < now
    · rw [if_pos h1] at h
      cases h
      rfl
    · rw [if_neg h1] at h
      by_cases h2 : now + MAX_CLOCK_SKEW < ts
      · rw [if_pos h2] at h
        cases h
        rfl
      · rw [if_neg h2] at h
        exact afterTime_error P f data e h

theorem decrypt_error (P : Provider) (f : Fernet) (token : Bytes)
    (ti : Option (Nat × Nat)) (e : Err)
    (h : Fernet.decrypt P f token ti = .error e) : e = .invalidToken := by
  rw [Fernet.decrypt] at h
  rcases hp : Fernet.getUnverifiedTokenData token with ⟨e'⟩ | ⟨ts, data⟩ <;>
    simp only [hp] at h
  · cases h
    exact getUnverified_error token _ hp
  · exact decryptData_error P f data ts ti e h

theorem ValidBytes_take (d : Bytes) (n : Nat) (h : ValidBytes d) : ValidBytes (d.take n) :=
  fun b hb => h b (List.take_subset n d hb)

theorem ValidBytes_drop (d : Bytes) (n : Nat) (h : ValidBytes d) : ValidBytes (d.drop n) :=
  fun b hb => h b (List.drop_subset n d hb)

theorem pkcs7unpad_valid (d u : Bytes) (h : pkcs7unpad d = some u) (hv : ValidBytes d) :
    ValidBytes u := by
  rw [pkcs7unpad] at h
  split at h
  · cases h
  · simp only at h
    split at h
    · cases h
    · split at h
      · cases h
        exact ValidBytes_take d _ hv
      · cases h

/-- Facts recovered from a successful unverified parse: the token decoded
to exactly the returned data, the data is a genuine byte string, the
timestamp is below 2 to the 64 and is the big-endian read of bytes 1-8. -/
theorem getUnverified_ok_facts (token : Bytes) (ts : Nat) (data : Bytes)
    (h : Fernet.getUnverifiedTokenData token = .ok (ts, data)) :
    b64decode token = some data ∧ ValidBytes data ∧ ts < 2 ^ 64 ∧
      unpackU64 ((data.drop 1).take 8) = some ts := by
  revert h
  simp only [Fernet.getUnverifiedTokenData]
  rcases hb : b64decode token with _ | d
  · intro h
    exact Except.noConfusion h
  · have hvd : ValidBytes d := b64decode_valid token d hb
    match d, hvd with
    | [], _ => intro h; exact Except.noConfusion h
    | b :: rest, hvd =>
      simp only
      split
      · intro h
        exact Except.noConfusion h
      · rcases hu : unpackU64 (((b :: rest).drop 1).take 8) with _ | ts' <;>
          simp only [hu]
        · intro h
          exact Except.noConfusion h
        · intro h
          cases h
          refine ⟨rfl, hvd, ?_, hu⟩
          exact unpackU64_lt _ _ hu (ValidBytes_take _ _ (ValidBytes_drop _ _ hvd))

theorem decryptData_valid_pt (P : Provider) (hP : P.Lawful) (f : Fernet) (data : Bytes)
    (ts : Nat) (ti : Option (Nat × Nat)) (pt : Bytes)
    (h : Fernet.decryptData P f data ts ti = .ok pt) (hv : ValidBytes data) :
    ValidBytes pt := by
  have hafter := decryptData_ok_imp P f data ts ti pt h
  rw [Fernet.decryptDataAfterTime] at hafter
  split at hafter
  · exact Except.noConfusion hafter
  · simp only at hafter
    rcases hc : P.cbcDecrypt f.encryptionKey ((data.drop 9).take 16)
        ((data.drop 25).take (data.length - 32 - 25)) with _ | p <;>
      simp only [hc] at hafter
    · exact Except.noConfusion hafter
    · rcases hu : pkcs7unpad p with _ | u <;> simp only [hu] at hafter
      · exact Except.noConfusion hafter
      · cases hafter
        exact pkcs7unpad_valid p pt hu
          (hP.dec_valid _ _ _ _ hc (ValidBytes_take _ _ (ValidBytes_drop _ _ hv)))

/-- Concrete 32-byte master key used to run the scheme on examples. -/
def sampleMaster : Bytes := List.range 32

/-- The sample master key in base64url form, as a caller would supply it. -/
def sampleKey : Bytes := b64encode sampleMaster

/-- The engine built from the sample master key. -/
def sampleFernet : Fernet := ⟨sampleMaster.take 16, sampleMaster.drop 16⟩

/-- A second, distinct engine for ring examples. -/
def sampleFernet2 : Fernet := ⟨List.replicate 16 7, List.replicate 16 9⟩

/-- A fixed all-zero 16-byte IV for deterministic examples. -/
def sampleIv : Bytes := List.replicate 16 0

/-- A two-byte payload. -/
def samplePayload : Bytes := [104, 105]

/-- The raw bytes of a valid sample token issued at time 1000. -/
def sampleGoodData : Bytes := fernetRawToken toyProvider sampleFernet samplePayload 1000 sampleIv

/-- A 25-byte signed prefix with timestamp 5 and empty ciphertext. -/
def sampleShortPrefix : Bytes := 0x80 :: (packU64 5 ++ sampleIv)

/-- A 57-byte token body with empty ciphertext and a correct tag. -/
def sampleShortData : Bytes :=
  sampleShortPrefix ++ toyProvider.mac sampleFernet.signingKey sampleShortPrefix

/-- The base64url encoding of the 57-byte body. -/
def sampleShortToken : Bytes := b64encode sampleShortData

/-- A 57-byte token body whose trailing 32 bytes do not match the tag. -/
def sampleBadData : Bytes := sampleShortPrefix ++ List.replicate 32 255

/-- The base64url encoding of the mismatched-tag body. -/
def sampleBadToken : Bytes := b64encode sampleBadData

/-- C1: Round trip — for every byte payload and every time below 2^64,
decrypting a token produced by encryptFromParts at that time, with the
same engine and either no ttl or a (ttl, now) pair under which the token
is neither expired nor future-dated, returns exactly the payload. -/
theorem claim_C1_round_trip (P : Provider) (hP : P.Lawful) (f : Fernet) (data : Bytes)
    (time : Nat) (iv : Bytes) (timeInfo : Option (Nat × Nat))
    (hvd : ValidBytes data) (hviv : ValidBytes iv) (hiv : iv.length = 16)
    (ht : time < 2 ^ 64)
    (hti : ∀ ttl now, timeInfo = some (ttl, now) →
        ¬(time + ttl < now) ∧ ¬(now + MAX_CLOCK_SKEW < time)) :
    Fernet.decrypt P f (f.encryptFromParts P data time iv) timeInfo = .ok data :=
  fernet_roundtrip P hP f data time iv timeInfo hvd hviv hiv ht hti

/-- Witness for C1: the round trip evaluated at a concrete key, payload,
issue time 1000 and ttl policy (60, 1060). -/
theorem claim_C1_round_trip_witness :
    Fernet.decrypt toyProvider sampleFernet
      (Fernet.encryptFromParts toyProvider sampleFernet samplePayload 1000 sampleIv)
      (some (60, 1060)) = .ok samplePayload :=
  claim_C1_round_trip toyProvider toyProvider_lawful sampleFernet samplePayload 1000 sampleIv
    (some (60, 1060)) (by decide) (by decide) (by decide) (by decide)
    (by
      intro ttl now h
      simp only [Option.some.injEq, Prod.mk.injEq] at h
      obtain ⟨h1, h2⟩ := h
      subst h1
      subst h2
      exact ⟨by decide, by decide⟩)

/-- C2: decrypt returns plaintext only for a token whose trailing 32
bytes equal the MAC under the signing key of the preceding bytes, and for
every parsed token with a tag mismatch decrypt fails with InvalidToken,
whatever the ttl policy is. -/
theorem claim_C2_tag_required (P : Provider) (f : Fernet) (token : Bytes)
    (timeInfo : Option (Nat × Nat)) :
    (∀ pt, Fernet.decrypt P f token timeInfo = .ok pt →
      ∃ ts data, Fernet.getUnverifiedTokenData token = .ok (ts, data) ∧
        P.mac f.signingKey (data.take (data.length - 32)) =
          data.drop (data.length - 32)) ∧
    (∀ ts data, Fernet.getUnverifiedTokenData token = .ok (ts, data) →
      P.mac f.signingKey (data.take (data.length - 32)) ≠
        data.drop (data.length - 32) →
      Fernet.decrypt P f token timeInfo = .error .invalidToken) := by
  constructor
  · intro pt h
    rw [Fernet.decrypt] at h
    rcases hp : Fernet.getUnverifiedTokenData token with ⟨e⟩ | ⟨ts, data⟩ <;>
      simp only [hp] at h
    · exact Except.noConfusion h
    · refine ⟨ts, data, rfl, ?_⟩
      have hsig := afterTime_ok_sig P f data pt (decryptData_ok_imp P f data ts timeInfo pt h)
      rw [Fernet.verifySignature, decide_eq_true_eq] at hsig
      exact hsig
  · intro ts data hp hne
    rw [Fernet.decrypt]
    simp only [hp]
    exact decryptData_sig_fail P f data ts timeInfo
      (by rw [Fernet.verifySignature]; exact decide_eq_false hne)

/-- Witness for C2: a concrete token whose tag bytes are wrong is
rejected with InvalidToken. -/
theorem claim_C2_tag_required_witness :
    Fernet.decrypt toyProvider sampleFernet sampleBadToken none = .error .invalidToken :=
  (claim_C2_tag_required toyProvider sampleFernet sampleBadToken none).2 5 sampleBadData
    (by rfl) (by decide)

/-- C3: with a ttl policy (ttl, now), a token that otherwise decrypts is
rejected exactly when its timestamp ts satisfies ts + ttl < now (expired)
or now + 60 < ts (future-dated beyond the fixed skew tolerance); the
rejection is InvalidToken. -/
theorem claim_C3_ttl_boundary (P : Provider) (f : Fernet) (data pt : Bytes)
    (ts ttl now : Nat)
    (hok : Fernet.decryptData P f data ts none = .ok pt) :
    (Fernet.decryptData P f data ts (some (ttl, now)) = .ok pt ↔
      ¬(ts + ttl < now ∨ now + MAX_CLOCK_SKEW < ts)) ∧
    ((ts + ttl < now ∨ now + MAX_CLOCK_SKEW < ts) →
      Fernet.decryptData P f data ts (some (ttl, now)) = .error .invalidToken) := by
  have hafter : Fernet.decryptDataAfterTime P f data = .ok pt := hok
  have hrej : (ts + ttl < now ∨ now + MAX_CLOCK_SKEW < ts) →
      Fernet.decryptData P f data ts (some (ttl, now)) = .error .invalidToken := by
    intro hc
    rw [decryptData_some_eq]
    rcases hc with hc | hc
    · rw [if_pos hc]
    · by_cases h1 : ts + ttl < now
      · rw [if_pos h1]
      · rw [if_neg h1, if_pos hc]
  refine ⟨⟨?_, ?_⟩, hrej⟩
  · intro h
    by_contra hcon
    rw [hrej hcon] at h
    exact Except.noConfusion h
  · intro hnc
    rw [decryptData_some_eq, if_neg (fun hc => hnc (Or.inl hc)),
        if_neg (fun hc => hnc (Or.inr hc))]
    exact hafter

/-- Witness for C3: both boundaries on a concrete token issued at 1000 —
with ttl 60 it is accepted at now 1060 and rejected at 1061; it is
accepted when its timestamp is now + 60 (now 940) and rejected when its
timestamp is now + 61 (now 939). -/
theorem claim_C3_ttl_boundary_witness :
    Fernet.decryptData toyProvider sampleFernet sampleGoodData 1000
        (some (60, 1060)) = .ok samplePayload ∧
    Fernet.decryptData toyProvider sampleFernet sampleGoodData 1000
        (some (60, 1061)) = .error .invalidToken ∧
    Fernet.decryptData toyProvider sampleFernet sampleGoodData 1000
        (some (60, 940)) = .ok samplePayload ∧
    Fernet.decryptData toyProvider sampleFernet sampleGoodData 1000
        (some (60, 939)) = .error .invalidToken :=
  ⟨(claim_C3_ttl_boundary toyProvider sampleFernet sampleGoodData samplePayload 1000 60 1060
      (by rfl)).1.mpr (by decide),
   (claim_C3_ttl_boundary toyProvider sampleFernet sampleGoodData samplePayload 1000 60 1061
      (by rfl)).2 (by decide),
   (claim_C3_ttl_boundary toyProvider sampleFernet sampleGoodData samplePayload 1000 60 940
      (by rfl)).1.mpr (by decide),
   (claim_C3_ttl_boundary toyProvider sampleFernet sampleGoodData samplePayload 1000 60 939
      (by rfl)).2 (by decide)⟩

/-- C10: when no ttl is supplied, decryption performs no timestamp check
of any kind — the result does not depend on the embedded timestamp, and a
token with an arbitrarily distant timestamp still decrypts when its tag
and padding are valid. -/
theorem claim_C10_no_ttl_no_time_check (P : Provider) (f : Fernet) :
    (∀ data ts ts', Fernet.decryptData P f data ts none =
      Fernet.decryptData P f data ts' none) ∧
    (P.Lawful → ∀ data time iv, ValidBytes data → ValidBytes iv → iv.length = 16 →
      time < 2 ^ 64 →
      Fernet.decrypt P f (f.encryptFromParts P data time iv) none = .ok data) := by
  constructor
  · intro data ts ts'
    rfl
  · intro hP data time iv hvd hviv hiv ht
    exact fernet_roundtrip P hP f data time iv none hvd hviv hiv ht
      (fun ttl now h => Option.noConfusion h)

/-- Witness for C10: a token stamped with the largest representable
timestamp still decrypts without a ttl. -/
theorem claim_C10_no_ttl_no_time_check_witness :
    Fernet.decrypt toyProvider sampleFernet
      (Fernet.encryptFromParts toyProvider sampleFernet samplePayload (2 ^ 64 - 1) sampleIv)
      none = .ok samplePayload :=
  (claim_C10_no_ttl_no_time_check toyProvider sampleFernet).2 toyProvider_lawful
    samplePayload (2 ^ 64 - 1) sampleIv (by decide) (by decide) (by decide) (by decide)

theorem afterTime_short (P : Provider) (hP : P.Lawful) (f : Fernet) (data : Bytes)
    (hlen : data.length < 57) :
    Fernet.decryptDataAfterTime P f data = .error .invalidToken := by
  rw [Fernet.decryptDataAfterTime]
  split
  · rfl
  · simp only
    have hct : (data.drop 25).take (data.length - 32 - 25) = [] := by
      rw [show data.length - 32 - 25 = 0 from by omega, List.take_zero]
    rw [hct]
    rcases hc : P.cbcDecrypt f.encryptionKey ((data.drop 9).take 16) [] with _ | p <;>
      simp only [hc]
    have hp0 : p = [] := List.length_eq_zero.mp (by rw [hP.dec_length _ _ _ _ hc]; rfl)
    subst hp0
    simp only [pkcs7unpad_nil]

theorem decryptData_short (P : Provider) (hP : P.Lawful) (f : Fernet) (data : Bytes)
    (ts : Nat) (ti : Option (Nat × Nat)) (hlen : data.length < 57) :
    Fernet.decryptData P f data ts ti = .error .invalidToken := by
  have hafter := afterTime_short P hP f data hlen
  match ti with
  | none => exact hafter
  | some (ttl, now) =>
    rw [decryptData_some_eq]
    by_cases h1 : ts + ttl < now
    · rw [if_pos h1]
    · rw [if_neg h1]
      by_cases h2 : now + MAX_CLOCK_SKEW < ts
      · rw [if_pos h2]
      · rw [if_neg h2]
        exact hafter

/-- C4: decrypt fails with InvalidToken on every token whose base64url
decoding yields fewer than 57 bytes — no such short token is ever
decrypted to a plaintext, under any ttl policy. -/
theorem claim_C4_short_token (P : Provider) (hP : P.Lawful) (f : Fernet)
    (token data : Bytes) (timeInfo : Option (Nat × Nat))
    (hdec : b64decode token = some data) (hlen : data.length < 57) :
    Fernet.decrypt P f token timeInfo = .error .invalidToken := by
  rw [Fernet.decrypt]
  simp only [Fernet.getUnverifiedTokenData, hdec]
  rcases data with _ | ⟨b, rest⟩
  · rfl
  · simp only
    by_cases hb : b = 0x80
    · rw [if_neg (by omega)]
      rcases hu : unpackU64 (((b :: rest).drop 1).take 8) with _ | ts <;> simp only [hu]
      exact decryptData_short P hP f (b :: rest) ts timeInfo hlen
    · rw [if_pos (by omega)]

/-- A 9-byte decoded token: version byte and timestamp only. -/
def sampleTinyData : Bytes := 0x80 :: packU64 7

/-- Its base64url encoding. -/
def sampleTinyToken : Bytes := b64encode sampleTinyData

/-- Witness for C4: a 9-byte token is rejected. -/
theorem claim_C4_short_token_witness :
    Fernet.decrypt toyProvider sampleFernet sampleTinyToken none = .error .invalidToken :=
  claim_C4_short_token toyProvider toyProvider_lawful sampleFernet sampleTinyToken
    sampleTinyData none (by rfl) (by decide)

/-- C5: processing a caller-supplied token either returns a plaintext or
fails with exactly the one opaque InvalidToken error, for every token,
engine and ttl policy — no other error kind can escape. -/
theorem claim_C5_single_opaque_error (P : Provider) (f : Fernet) (token : Bytes)
    (timeInfo : Option (Nat × Nat)) :
    (∃ pt, Fernet.decrypt P f token timeInfo = .ok pt) ∨
      Fernet.decrypt P f token timeInfo = .error .invalidToken := by
  rcases h : Fernet.decrypt P f token timeInfo with ⟨e⟩ | ⟨pt⟩
  · right
    rw [decrypt_error P f token timeInfo e h]
  · left
    exact ⟨pt, rfl⟩

/-- C8: engine construction fails with ValueError exactly when the
supplied key does not base64url-decode to exactly 32 bytes; on success
the signing key is the first 16 and the encryption key the last 16 bytes
of the decoded master key. -/
theorem claim_C8_key_validation (key : Bytes) :
    ((∃ f, Fernet.mk? key = .ok f) ↔ (∃ k, b64decode key = some k ∧ k.length = 32)) ∧
    (∀ f k, Fernet.mk? key = .ok f → b64decode key = some k →
      f.signingKey = k.take 16 ∧ f.encryptionKey = k.drop 16) ∧
    (∀ e, Fernet.mk? key = .error e → e = .valueError) := by
  refine ⟨⟨?_, ?_⟩, ?_, ?_⟩
  · rintro ⟨f, hf⟩
    rcases hb : b64decode key with _ | k <;> simp only [Fernet.mk?, hb] at hf
    · exact Except.noConfusion hf
    · split at hf
      · exact Except.noConfusion hf
      · refine ⟨k, rfl, by omega⟩
  · rintro ⟨k, hk, hlen⟩
    simp only [Fernet.mk?, hk]
    rw [if_neg (by omega)]
    exact ⟨_, rfl⟩
  · intro f k hf hk
    simp only [Fernet.mk?, hk] at hf
    split at hf
    · exact Except.noConfusion hf
    · cases hf
      exact ⟨rfl, rfl⟩
  · intro e he
    rcases hb : b64decode key with _ | k <;> simp only [Fernet.mk?, hb] at he
    · cases he
      rfl
    · split at he
      · cases he
        rfl
      · exact Except.noConfusion he

/-- Witness for C8: the sample 44-character key constructs an engine, and
a 31-byte key is rejected with ValueError. -/
theorem claim_C8_key_validation_witness :
    (∃ f, Fernet.mk? sampleKey = .ok f) ∧
      (∀ e, Fernet.mk? (b64encode (List.range 31)) = .error e → e = .valueError) :=
  ⟨(claim_C8_key_validation sampleKey).1.mpr ⟨sampleMaster, by rfl, by decide⟩,
   (claim_C8_key_validation (b64encode (List.range 31))).2.2⟩

/-- C9: extract_timestamp succeeds with the embedded timestamp exactly
when the token parses and its trailing 32 bytes match the MAC — no
decryption, ttl or padding check is performed — so it succeeds on a
concrete token (empty ciphertext) that decrypt rejects. -/
theorem claim_C9_extract_timestamp :
    (∀ (P : Provider) (f : Fernet) (token : Bytes) (ts : Nat),
      Fernet.extractTimestamp P f token = .ok ts ↔
        ∃ data, Fernet.getUnverifiedTokenData token = .ok (ts, data) ∧
          Fernet.verifySignature P f data = true) ∧
    (Fernet.extractTimestamp toyProvider sampleFernet sampleShortToken = .ok 5 ∧
      Fernet.decrypt toyProvider sampleFernet sampleShortToken none =
        .error .invalidToken) := by
  constructor
  · intro P f token ts
    constructor
    · intro h
      rw [Fernet.extractTimestamp] at h
      rcases hp : Fernet.getUnverifiedTokenData token with ⟨e⟩ | ⟨ts', data⟩ <;>
        simp only [hp] at h
      · exact Except.noConfusion h
      · by_cases hv : Fernet.verifySignature P f data
        · rw [if_pos hv] at h
          cases h
          exact ⟨data, rfl, hv⟩
        · rw [if_neg hv] at h
          exact Except.noConfusion h
    · rintro ⟨data, hp, hv⟩
      rw [Fernet.extractTimestamp]
      simp only [hp]
      rw [if_pos hv]
  · exact ⟨by rfl, by rfl⟩

theorem verifySignature_generic (P : Provider) (f : Fernet) (ts8 iv ct tag : Bytes)
    (h8 : ts8.length = 8) (hiv : iv.length = 16) (htag : tag.length = 32)
    (hsig : P.mac f.signingKey (0x80 :: (ts8 ++ (iv ++ ct))) = tag) :
    Fernet.verifySignature P f (0x80 :: (ts8 ++ (iv ++ (ct ++ tag)))) = true := by
  have hraw : (0x80 :: (ts8 ++ (iv ++ (ct ++ tag)))) =
      (0x80 :: (ts8 ++ (iv ++ ct))) ++ tag := by
    simp [List.append_assoc]
  have hpre : (0x80 :: (ts8 ++ (iv ++ ct))).length =
      ((0x80 :: (ts8 ++ (iv ++ ct))) ++ tag).length - 32 := by
    simp only [List.length_cons, List.length_append, h8, hiv, htag]
    omega
  have htake : (0x80 :: (ts8 ++ (iv ++ (ct ++ tag)))).take
      ((0x80 :: (ts8 ++ (iv ++ (ct ++ tag)))).length - 32) =
      0x80 :: (ts8 ++ (iv ++ ct)) := by
    conv_lhs => rw [hraw]
    exact List.take_left' hpre
  have hdrop32 : (0x80 :: (ts8 ++ (iv ++ (ct ++ tag)))).drop
      ((0x80 :: (ts8 ++ (iv ++ (ct ++ tag)))).length - 32) = tag := by
    conv_lhs => rw [hraw]
    exact List.drop_left' hpre
  rw [Fernet.verifySignature, htake, hdrop32, hsig]
  simp

/-- Timestamp extraction on a freshly produced token returns the time it
was encrypted at. -/
theorem extractTimestamp_encrypt (P : Provider) (hP : P.Lawful) (f : Fernet) (p : Bytes)
    (ts : Nat) (iv : Bytes) (hvp : ValidBytes p) (hviv : ValidBytes iv)
    (hiv : iv.length = 16) (hts : ts < 2 ^ 64) :
    Fernet.extractTimestamp P f (f.encryptFromParts P p ts iv) = .ok ts := by
  have hassoc : fernetRawToken P f p ts iv =
      0x80 :: (packU64 ts ++ (iv ++ (fernetCiphertext P f p iv ++
        P.mac f.signingKey (fernetBasicParts P f p ts iv)))) := by
    simp [fernetRawToken, fernetBasicParts, List.append_assoc]
  have hdec : b64decode (f.encryptFromParts P p ts iv) =
      some (0x80 :: (packU64 ts ++ (iv ++ (fernetCiphertext P f p iv ++
        P.mac f.signingKey (fernetBasicParts P f p ts iv))))) := by
    rw [encryptFromParts_eq, b64decode_b64encode _
      (fernetRawToken_valid P hP f p ts iv hvp hviv), hassoc]
  have hparse := getUnverifiedTokenData_ok _ _ _ hdec hts
  have hver := verifySignature_generic P f (packU64 ts) iv (fernetCiphertext P f p iv)
    (P.mac f.signingKey (fernetBasicParts P f p ts iv))
    (packU64_length ts) hiv (hP.mac_length _ _)
    (by
      apply congrArg
      simp [fernetBasicParts, List.append_assoc])
  rw [Fernet.extractTimestamp]
  simp only [hparse]
  rw [if_pos hver]

theorem rotateLoop_some (P : Provider) (fs : List Fernet) (data : Bytes) (ts : Nat)
    (p : Bytes) (h : rotateLoop P fs data ts = some p) :
    ∃ f, f ∈ fs ∧ Fernet.decryptData P f data ts none = .ok p := by
  induction fs with
  | nil => exact Option.noConfusion h
  | cons f rest ih =>
    rw [rotateLoop] at h
    rcases hd : Fernet.decryptData P f data ts none with ⟨e⟩ | ⟨p'⟩ <;>
      simp only [hd] at h
    · obtain ⟨g, hg, hgok⟩ := ih h
      exact ⟨g, by simp [hg], hgok⟩
    · cases h
      exact ⟨f, by simp, hd⟩

theorem rotateLoop_none (P : Provider) (fs : List Fernet) (data : Bytes) (ts : Nat)
    (h : ∀ f ∈ fs, ∀ pt, Fernet.decryptData P f data ts none ≠ .ok pt) :
    rotateLoop P fs data ts = none := by
  induction fs with
  | nil => rfl
  | cons f rest ih =>
    rw [rotateLoop]
    rcases hd : Fernet.decryptData P f data ts none with ⟨e⟩ | ⟨p'⟩ <;> simp only [hd]
    · exact ih (fun g hg => h g (by simp [hg]))
    · exact absurd hd (h f (by simp) p')

/-- C6: rotation preserves issuance time — when rotate succeeds, the new
token carries the original embedded timestamp (extract_timestamp agrees
on both tokens), decrypts under the first engine to the plaintext some
ring engine recovered from the original token, and rotate fails with
InvalidToken when no engine can decrypt. -/
theorem claim_C6_rotate_preserves_time (P : Provider) (hP : P.Lawful) (m : MultiFernet)
    (msg iv : Bytes) (hviv : ValidBytes iv) (hiv : iv.length = 16) :
    (∀ tok', MultiFernet.rotate P m msg iv = .ok tok' →
      ∃ ts data p,
        Fernet.getUnverifiedTokenData msg = .ok (ts, data) ∧
        Fernet.extractTimestamp P (m.fernets.head m.nonempty) tok' = .ok ts ∧
        Fernet.decrypt P (m.fernets.head m.nonempty) tok' none = .ok p ∧
        ∃ f, f ∈ m.fernets ∧ Fernet.decryptData P f data ts none = .ok p ∧
          Fernet.extractTimestamp P f msg = .ok ts) ∧
    ((∀ f ∈ m.fernets, ∀ ts data pt,
        Fernet.getUnverifiedTokenData msg = .ok (ts, data) →
        Fernet.decryptData P f data ts none ≠ .ok pt) →
      MultiFernet.rotate P m msg iv = .error .invalidToken) := by
  constructor
  · intro tok' hrot
    rw [MultiFernet.rotate] at hrot
    rcases hp : Fernet.getUnverifiedTokenData msg with ⟨e⟩ | ⟨ts, data⟩ <;>
      simp only [hp] at hrot
    · exact Except.noConfusion hrot
    · rcases hl : rotateLoop P m.fernets data ts with _ | p <;> simp only [hl] at hrot
      · exact Except.noConfusion hrot
      · cases hrot
        obtain ⟨hdec, hvdata, hts, hun⟩ := getUnverified_ok_facts msg ts data hp
        obtain ⟨f, hf, hfok⟩ := rotateLoop_some P m.fernets data ts p hl
        have hvp : ValidBytes p := decryptData_valid_pt P hP f data ts none p hfok hvdata
        refine ⟨ts, data, p, rfl, ?_, ?_, f, hf, hfok, ?_⟩
        · exact extractTimestamp_encrypt P hP (m.fernets.head m.nonempty) p ts iv
            hvp hviv hiv hts
        · exact fernet_roundtrip P hP (m.fernets.head m.nonempty) p ts iv none
            hvp hviv hiv hts (fun ttl now h => Option.noConfusion h)
        · have hsig := afterTime_ok_sig P f data p (decryptData_ok_imp P f data ts none p hfok)
          rw [Fernet.extractTimestamp]
          simp only [hp]
          rw [if_pos hsig]
  · intro hall
    rw [MultiFernet.rotate]
    rcases hp : Fernet.getUnverifiedTokenData msg with ⟨e⟩ | ⟨ts, data⟩ <;> simp only [hp]
    · rw [getUnverified_error msg e hp]
    · have hnone : rotateLoop P m.fernets data ts = none :=
        rotateLoop_none P m.fernets data ts (fun f hf pt => hall f hf ts data pt hp)
      simp only [hnone]

/-- The base64url text of the sample token issued at time 1000. -/
def sampleGoodToken : Bytes := b64encode sampleGoodData

/-- A second fixed IV for rotation examples. -/
def sampleIv2 : Bytes := List.replicate 16 1

/-- A two-engine ring: new engine first, sample engine second. -/
def sampleRing : MultiFernet := ⟨[sampleFernet2, sampleFernet], List.cons_ne_nil _ _⟩

/-- Witness for C6: rotating the sample token (issued at 1000 under the
old engine) through the ring re-issues it under the new engine with the
same timestamp 1000. -/
theorem claim_C6_rotate_preserves_time_witness :
    ∃ ts data p,
      Fernet.getUnverifiedTokenData sampleGoodToken = .ok (ts, data) ∧
      Fernet.extractTimestamp toyProvider (sampleRing.fernets.head sampleRing.nonempty)
        (Fernet.encryptFromParts toyProvider sampleFernet2 samplePayload 1000 sampleIv2) =
          .ok ts ∧
      Fernet.decrypt toyProvider (sampleRing.fernets.head sampleRing.nonempty)
        (Fernet.encryptFromParts toyProvider sampleFernet2 samplePayload 1000 sampleIv2)
        none = .ok p ∧
      ∃ f, f ∈ sampleRing.fernets ∧
        Fernet.decryptData toyProvider f data ts none = .ok p ∧
        Fernet.extractTimestamp toyProvider f sampleGoodToken = .ok ts :=
  (claim_C6_rotate_preserves_time toyProvider toyProvider_lawful sampleRing sampleGoodToken
    sampleIv2 (by decide) (by decide)).1
    (Fernet.encryptFromParts toyProvider sampleFernet2 samplePayload 1000 sampleIv2) (by rfl)

theorem multiDecryptLoop_all_fail (P : Provider) (fs : List Fernet) (msg : Bytes)
    (ti : Option (Nat × Nat))
    (h : ∀ g ∈ fs, ∀ pt, Fernet.decrypt P g msg ti ≠ .ok pt) :
    multiDecryptLoop P fs msg ti = .error .invalidToken := by
  induction fs with
  | nil => rfl
  | cons f rest ih =>
    rw [multiDecryptLoop]
    rcases hd : Fernet.decrypt P f msg ti with ⟨e⟩ | ⟨pt⟩ <;> simp only [hd]
    · exact ih (fun g hg => h g (by simp [hg]))
    · exact absurd hd (h f (by simp) pt)

theorem multiDecryptLoop_first (P : Provider) (fs1 : List Fernet) (f : Fernet)
    (fs2 : List Fernet) (msg : Bytes) (ti : Option (Nat × Nat)) (pt : Bytes)
    (hfail : ∀ g ∈ fs1, ∀ pt', Fernet.decrypt P g msg ti ≠ .ok pt')
    (hok : Fernet.decrypt P f msg ti = .ok pt) :
    multiDecryptLoop P (fs1 ++ f :: fs2) msg ti = .ok pt := by
  induction fs1 with
  | nil =>
    rw [List.nil_append, multiDecryptLoop]
    simp only [hok]
  | cons g rest ih =>
    rw [List.cons_append, multiDecryptLoop]
    rcases hd : Fernet.decrypt P g msg ti with ⟨e⟩ | ⟨pt'⟩ <;> simp only [hd]
    · exact ih (fun g' hg' => hfail g' (by simp [hg']))
    · exact absurd hd (hfail g (by simp) pt')

/-- C7: ring decryption tries the engines in list order and returns the
first success, fails with the single InvalidToken exactly when every
engine fails, and for a ring of a new engine before an old one, a token
encrypted under the old engine is successfully decrypted. -/
theorem claim_C7_ring_first_success (P : Provider) (m : MultiFernet) (msg : Bytes)
    (ti : Option (Nat × Nat)) :
    ((∀ g ∈ m.fernets, ∀ pt, Fernet.decrypt P g msg ti ≠ .ok pt) →
      MultiFernet.decrypt P m msg ti = .error .invalidToken) ∧
    (∀ fs1 f fs2 pt, m.fernets = fs1 ++ f :: fs2 →
      (∀ g ∈ fs1, ∀ pt', Fernet.decrypt P g msg ti ≠ .ok pt') →
      Fernet.decrypt P f msg ti = .ok pt →
      MultiFernet.decrypt P m msg ti = .ok pt) ∧
    (P.Lawful → ∀ (fnew fold : Fernet) (data : Bytes) (time : Nat) (iv : Bytes),
      ValidBytes data → ValidBytes iv → iv.length = 16 → time < 2 ^ 64 →
      ∃ pt, MultiFernet.decrypt P ⟨[fnew, fold], List.cons_ne_nil fnew [fold]⟩
        (fold.encryptFromParts P data time iv) none = .ok pt) := by
  refine ⟨?_, ?_, ?_⟩
  · intro h
    exact multiDecryptLoop_all_fail P m.fernets msg ti h
  · intro fs1 f fs2 pt hsplit hfail hok
    rw [MultiFernet.decrypt, hsplit]
    exact multiDecryptLoop_first P fs1 f fs2 msg ti pt hfail hok
  · intro hP fnew fold data time iv hvd hviv hiv ht
    have hold : Fernet.decrypt P fold (fold.encryptFromParts P data time iv) none =
        .ok data :=
      fernet_roundtrip P hP fold data time iv none hvd hviv hiv ht
        (fun ttl now h => Option.noConfusion h)
    rw [MultiFernet.decrypt]
    rcases hd : Fernet.decrypt P fnew (fold.encryptFromParts P data time iv) none
        with ⟨e⟩ | ⟨pt⟩
    · refine ⟨data, ?_⟩
      rw [multiDecryptLoop]
      simp only [hd]
      rw [multiDecryptLoop]
      simp only [hold]
    · refine ⟨pt, ?_⟩
      rw [multiDecryptLoop]
      simp only [hd]

/-- Witness for C7: a ring of the second sample engine before the sample
engine decrypts a token encrypted under the latter. -/
theorem claim_C7_ring_first_success_witness :
    ∃ pt, MultiFernet.decrypt toyProvider
      ⟨[sampleFernet2, sampleFernet], List.cons_ne_nil sampleFernet2 [sampleFernet]⟩
      (Fernet.encryptFromParts toyProvider sampleFernet samplePayload 1000 sampleIv)
      none = .ok pt :=
  (claim_C7_ring_first_success toyProvider
    ⟨[sampleFernet2, sampleFernet], List.cons_ne_nil sampleFernet2 [sampleFernet]⟩
    (Fernet.encryptFromParts toyProvider sampleFernet samplePayload 1000 sampleIv)
    none).2.2 toyProvider_lawful sampleFernet2 sampleFernet samplePayload 1000 sampleIv
    (by decide) (by decide) (by decide) (by decide)
